import Mathlib

/-!
Verification of the nested-structure accessor family of `lionfuncs`
(`nget` / `nset` / `ninsert` / `npop` / `nfilter` / `flatten` / `unflatten`).

The repository ships these functions in `lionfuncs.data_handlers`; the
sources available here contain their API-reference notebooks (with executed
example cells and recorded outputs) and design documentation, but not the
Python bodies themselves.  The definitions below are therefore modelled
from the specification and from the recorded input/output behaviour of the
notebooks, as noted in each doc comment.

Data model (spec §3): a nested structure is recursively an ordered mapping
from keys to structures, an ordered sequence of structures, or a scalar
leaf.  Mappings are modelled as ordered association lists (Python dicts
preserve insertion order), sequences as lists.  A path is a list of
accessors, each a mapping key or a sequence index.
-/

/-- Modelled from the spec: an accessor of a path is either a mapping key
or a non-negative sequence index (spec §3 "Path"). -/
inductive Accessor where
  | key : String → Accessor
  | idx : Nat → Accessor
deriving DecidableEq, Repr

/-- Modelled from the spec: a nested structure is recursively an ordered
mapping, an ordered sequence, or a scalar leaf (spec §3 "Nested
Structure").  `null` is Python's `None`, which doubles as the
"absent" placeholder used when sequences are extended. -/
inductive Node where
  | null : Node
  | int : Int → Node
  | str : String → Node
  | map : List (String × Node) → Node
  | seq : List Node → Node

/-- Modelled from the spec: the error taxonomy of §7 — Lookup/Key failure,
Type failure, Value failure — together with the attribute failure the
`ninsert` notebook records for unsupported containers.  Each constructor
carries the exception message. -/
inductive Err where
  | lookupError : String → Err
  | keyError : String → Err
  | typeError : String → Err
  | valueError : String → Err
  | attributeError : String → Err
deriving DecidableEq, Repr

/-- Message recorded by the `nget` notebook for every failed lookup. -/
def targetNotFoundMsg : String := "Target not found and no default value provided."

/-- Message recorded by the `ninsert` notebook for an empty indices list. -/
def emptyIndicesMsg : String := "Indices list cannot be empty"

/-- Message recorded by the `ninsert` notebook for a string key used on a list. -/
def listKeyMsg : String := "Cannot use non-integer index on a list"

/-- Message modelled from the `ninsert` notebook for an integer index used on
a mapping (Python raises `AttributeError: 'dict' object has no attribute 'append'`-style
failures for the unsupported combination). -/
def mapIdxMsg : String := "Cannot use integer index on a dictionary"

/-- Message recorded by the `ninsert` notebook when assigning into a scalar. -/
def scalarAssignMsg : String := "object does not support item assignment"

/-- Message modelled from the `npop` notebook: a `KeyError` is raised when the
path does not resolve and no default is given. -/
def popKeyMsg : String := "Key or index not found"

/-- Ordered-association-list lookup: Python `d[k]` on an insertion-ordered dict. -/
def assocGet : List (String × Node) → String → Option Node
  | [], _ => Option.none
  | (k', v) :: rest, k => if k' = k then some v else assocGet rest k

/-- Ordered-association-list assignment: Python `d[k] = v`.  An existing key
keeps its position; a new key is appended at the end. -/
def assocSet : List (String × Node) → String → Node → List (String × Node)
  | [], k, v => [(k, v)]
  | (k', v') :: rest, k, v =>
      if k' = k then (k', v) :: rest else (k', v') :: assocSet rest k v

/-- Ordered-association-list removal: Python `d.pop(k)`'s effect on the dict. -/
def assocRemove : List (String × Node) → String → List (String × Node)
  | [], _ => []
  | (k', v') :: rest, k =>
      if k' = k then rest else (k', v') :: assocRemove rest k

/-- Modelled from the spec: one traversal step of the Path Navigator
(spec §4.1) — a key accessor applied to a mapping node descends through the
key when present, an index accessor applied to a sequence node descends
through a valid index; every other combination is a traversal error. -/
def resolve : Node → Accessor → Option Node
  | Node.map m, Accessor.key k => assocGet m k
  | Node.seq s, Accessor.idx i => s.get? i
  | _, _ => Option.none

/-- Modelled from the spec: walking a whole path of accessors from a node
(spec §4.1 `get`).  The empty path resolves to the node itself. -/
def navigate : Node → List Accessor → Option Node
  | x, [] => some x
  | x, a :: rest => (resolve x a).bind (fun c => navigate c rest)

/-- Modelled from the spec: `nget(nested_structure, indices, default)`
(spec §4.1, `ref_nget.ipynb`).  Walks accessors in order and returns the
located value; on any failure (missing key, bad index, accessor-kind
mismatch, indexing into a scalar, or empty indices list) it returns the
default when one is supplied and otherwise raises a `LookupError` whose
message is the fixed string the notebook records.  Never mutates input. -/
def nget (x : Node) (p : List Accessor) (default : Option Node) : Except Err Node :=
  match p with
  | [] =>
      match default with
      | some d => Except.ok d
      | Option.none => Except.error (Err.lookupError targetNotFoundMsg)
  | _ =>
      match navigate x p with
      | some v => Except.ok v
      | Option.none =>
          match default with
          | some d => Except.ok d
          | Option.none => Except.error (Err.lookupError targetNotFoundMsg)

/-- Pads a sequence with `null` placeholders until its length is at least `n`:
Python's `while len(lst) <= part: lst.append(None)` from the `ninsert`
notebook's list-extension behaviour. -/
def extendNulls (s : List Node) (n : Nat) : List Node :=
  s ++ List.replicate (n - s.length) Node.null

/-- Modelled from the spec: the final assignment step of `nset`/`ninsert`
(spec §4.1 `set`, `ref_nset.ipynb`/`ref_ninsert.ipynb`): a key on a mapping
assigns in place (new keys are appended), an index on a sequence first
extends the sequence with `null` placeholders up to the index and then
assigns, and every other combination is a type error. -/
def setLast : Node → Accessor → Node → Except Err Node
  | Node.map m, Accessor.key k, v => Except.ok (Node.map (assocSet m k v))
  | Node.seq s, Accessor.idx i, v =>
      Except.ok (Node.seq ((extendNulls s (i + 1)).set i v))
  | Node.seq _, Accessor.key _, _ => Except.error (Err.typeError listKeyMsg)
  | Node.map _, Accessor.idx _, _ => Except.error (Err.typeError mapIdxMsg)
  | _, _, _ => Except.error (Err.typeError scalarAssignMsg)

/-- Node is a container (mapping or sequence). -/
def isContainer : Node → Bool
  | Node.map _ => true
  | Node.seq _ => true
  | _ => false

/-- The fresh intermediate container created for a missing step, chosen by
the kind of the next accessor (spec §4.1 `set`: missing keys create empty
mappings; the `ninsert` notebook's Example 3 shows an integer next accessor
creating a list). -/
def freshFor : Accessor → Node
  | Accessor.key _ => Node.map []
  | Accessor.idx _ => Node.seq []

/-- Modelled from the spec: `nset(nested_structure, indices, value)`
(spec §4.1 `set`, `ref_nset.ipynb`).  Creates missing intermediate mappings
and lists, extends sequences with `null` placeholders for out-of-range
indices, assigns the value at the final position overwriting any existing
value, raises a `ValueError` on an empty path and a `TypeError` on kind
mismatches or scalar intermediates.  In-place mutation is modelled by
returning the updated structure. -/
def nset : Node → List Accessor → Node → Except Err Node
  | _, [], _ => Except.error (Err.valueError emptyIndicesMsg)
  | x, [a], v => setLast x a v
  | x, a :: b :: rest, v =>
      match x, a with
      | Node.map m, Accessor.key k =>
          let c := match assocGet m k with
            | some c0 => c0
            | Option.none => freshFor b
          (nset c (b :: rest) v).map (fun c' => Node.map (assocSet m k c'))
      | Node.seq s, Accessor.idx i =>
          let s' := extendNulls s (i + 1)
          let c0 := s'.getD i Node.null
          let c := if isContainer c0 then c0 else freshFor b
          (nset c (b :: rest) v).map (fun c' => Node.seq (s'.set i c'))
      | Node.seq _, Accessor.key _ => Except.error (Err.typeError listKeyMsg)
      | Node.map _, Accessor.idx _ => Except.error (Err.typeError mapIdxMsg)
      | _, _ => Except.error (Err.typeError scalarAssignMsg)

/-- Modelled from the spec: `ninsert(nested_structure, indices, value)` is
semantically identical to `nset` for intermediate-structure creation and
list extension; insertion at an index appends or extends rather than
shifting existing elements (spec §4.1 `insert`, `ref_ninsert.ipynb`). -/
def ninsert (x : Node) (p : List Accessor) (v : Node) : Except Err Node :=
  nset x p v

/-- Modelled from the spec: the removal core of `npop` — navigate to the
parent of the final accessor and remove the addressed element, returning
the removed value and the mutated structure; `Option.none` when the path
does not resolve (spec §4.1 `pop`, `ref_npop.ipynb`). -/
def npopGo : Node → List Accessor → Option (Node × Node)
  | Node.map m, [Accessor.key k] =>
      (assocGet m k).map (fun v => (v, Node.map (assocRemove m k)))
  | Node.seq s, [Accessor.idx i] =>
      (s.get? i).map (fun v => (v, Node.seq (s.eraseIdx i)))
  | Node.map m, Accessor.key k :: b :: rest =>
      (assocGet m k).bind (fun c =>
        (npopGo c (b :: rest)).map (fun vc =>
          (vc.1, Node.map (assocSet m k vc.2))))
  | Node.seq s, Accessor.idx i :: b :: rest =>
      (s.get? i).bind (fun c =>
        (npopGo c (b :: rest)).map (fun vc =>
          (vc.1, Node.seq (s.set i vc.2))))
  | _, _ => Option.none

/-- Modelled from the spec: `npop(nested_structure, indices, default)`
(spec §4.1 `pop`, `ref_npop.ipynb`).  Removes and returns the value at the
path, mutating the structure in place (modelled by returning the pair of
removed value and updated structure).  An empty path raises `ValueError`;
an unresolvable path returns the default unchanged-structure pair when a
default is supplied and otherwise raises a `KeyError`. -/
def npop (x : Node) (p : List Accessor) (default : Option Node) :
    Except Err (Node × Node) :=
  match p with
  | [] => Except.error (Err.valueError emptyIndicesMsg)
  | _ =>
      match npopGo x p with
      | some vx => Except.ok vx
      | Option.none =>
          match default with
          | some d => Except.ok (d, x)
          | Option.none => Except.error (Err.keyError popKeyMsg)

/-- An empty container (empty mapping or empty sequence), which Python
treats as falsy. -/
def isEmptyContainer : Node → Bool
  | Node.map [] => true
  | Node.seq [] => true
  | _ => false

mutual
/-- Modelled from the spec: the recursive body of
`nfilter(nested_structure, condition)` applied to a container
(spec §4.3, nfilter reference in `ref_ninsert.ipynb`).  For a mapping,
every entry whose value satisfies the condition or is itself a container is
kept, container values being filtered recursively; sequences behave the
same way with order preserved and gaps closed.  This reproduces every
recorded example output of the nfilter notebook, including Example 2 where
a container emptied by filtering is retained. -/
def nfilterVal (c : Node → Bool) : Node → Node
  | Node.map m => Node.map (nfilterEntries c m)
  | Node.seq s => Node.seq (nfilterItems c s)
  | x => x

/-- Filters the entries of a mapping as `nfilter` does. -/
def nfilterEntries (c : Node → Bool) : List (String × Node) → List (String × Node)
  | [] => []
  | (k, v) :: rest =>
      (if c v || isContainer v then
        [(k, if isContainer v then nfilterVal c v else v)]
      else []) ++ nfilterEntries c rest

/-- Filters the items of a sequence as `nfilter` does. -/
def nfilterItems (c : Node → Bool) : List Node → List Node
  | [] => []
  | v :: rest =>
      (if c v || isContainer v then
        [if isContainer v then nfilterVal c v else v]
      else []) ++ nfilterItems c rest
end

/-- Modelled from the spec: `nfilter(nested_structure, condition)`
(spec §4.3).  The top level must be a mapping or a sequence, otherwise a
`TypeError` with the message the notebook records is raised. -/
def nfilter (x : Node) (c : Node → Bool) : Except Err Node :=
  match x with
  | Node.map m => Except.ok (Node.map (nfilterEntries c m))
  | Node.seq s => Except.ok (Node.seq (nfilterItems c s))
  | _ => Except.error (Err.typeError "The nested_structure must be either a dict or a list.")

/-- Decimal digit to its character, as Python's `str` renders indices. -/
def digitToChar (d : Nat) : Char :=
  match d with
  | 0 => '0' | 1 => '1' | 2 => '2' | 3 => '3' | 4 => '4'
  | 5 => '5' | 6 => '6' | 7 => '7' | 8 => '8' | _ => '9'

/-- Character to its decimal digit value, as Python's `int` parses them. -/
def charToDigit (c : Char) : Nat :=
  match c with
  | '0' => 0 | '1' => 1 | '2' => 2 | '3' => 3 | '4' => 4
  | '5' => 5 | '6' => 6 | '7' => 7 | '8' => 8 | _ => 9

/-- Fuel-driven decimal rendering of a natural number (most significant
digit first); the fuel argument only bounds the recursion depth. -/
def natDigitsAux : Nat → Nat → List Char
  | 0, _ => []
  | fuel + 1, n =>
      if n < 10 then [digitToChar n]
      else natDigitsAux fuel (n / 10) ++ [digitToChar (n % 10)]

/-- The decimal digits of a natural number, Python's `str(i)` for an index. -/
def natChars (n : Nat) : List Char := natDigitsAux (n + 1) n

/-- Parses a (digit-only) character list as a decimal number, Python's `int(s)`. -/
def charsToNat (cs : List Char) : Nat :=
  cs.foldl (fun acc c => 10 * acc + charToDigit c) 0

/-- Python's `str.isdigit` on the model's strings: non-empty and all digits. -/
def isDigitStr (s : String) : Bool :=
  !s.data.isEmpty && s.data.all (fun c => c.isDigit)

/-- Modelled from the spec: `unflatten` infers whether an accessor is a
sequence index from whether it is a non-negative integer string
(spec §4.2 `unflatten`). -/
def parseAcc (s : String) : Accessor :=
  if isDigitStr s then Accessor.idx (charsToNat s.data) else Accessor.key s

/-- The string a flatten accessor contributes to a composed key: the key
itself for mappings, Python's `str(i)` for sequence indices. -/
def accToStr : Accessor → String
  | Accessor.key k => k
  | Accessor.idx i => String.mk (natChars i)

/-- A child that flatten recurses into: a non-empty mapping or sequence.
Scalars and empty containers are leaves retained as-is (spec §4.2: a leaf
is a node with no further mapping/sequence children). -/
def shouldRecurse (v : Node) : Bool := isContainer v && !isEmptyContainer v

mutual
/-- Modelled from the spec: `flatten` at the level of accessor paths
(spec §4.2).  Produces the ordered list of (path, leaf) entries of a
structure, in structure order (mapping insertion order, sequence index
order); a leaf is a scalar or an empty container. -/
def aflatten : Node → List (List Accessor × Node)
  | Node.map m => aflattenEntries m
  | Node.seq s => aflattenItems s 0
  | x => [([], x)]

/-- Flatten entries of a mapping, prefixing each child path with the key. -/
def aflattenEntries : List (String × Node) → List (List Accessor × Node)
  | [] => []
  | (k, v) :: rest =>
      (if shouldRecurse v then aflatten v else [([], v)]).map
        (fun pw => (Accessor.key k :: pw.1, pw.2)) ++ aflattenEntries rest

/-- Flatten items of a sequence starting at index `i`, prefixing each child
path with its index. -/
def aflattenItems : List Node → Nat → List (List Accessor × Node)
  | [], _ => []
  | v :: rest, i =>
      (if shouldRecurse v then aflatten v else [([], v)]).map
        (fun pw => (Accessor.idx i :: pw.1, pw.2)) ++ aflattenItems rest (i + 1)
end

/-- Joins the accessor strings of a path with a (single-character)
separator, as Python's `sep.join` does when `coerce_keys` is true. -/
def joinParts (sep : Char) (parts : List String) : String :=
  String.mk (List.intercalate [sep] (parts.map String.data))

/-- Splits a composed key back into its accessor strings, Python's
`key.split(sep)`. -/
def splitParts (sep : Char) (s : String) : List String :=
  (s.data.splitOn sep).map String.mk

/-- Modelled from the spec: `flatten(structure, separator)` with string
keys and no `max_depth` (spec §4.2, the flatten cells of `ref_nset.ipynb`
with `coerce_keys=True, dynamic=True`): a fully materialised flat mapping
from joined accessor paths to leaves, in structure order. -/
def flatten (x : Node) (sep : Char) : List (String × Node) :=
  (aflatten x).map (fun pv => (joinParts sep (pv.1.map accToStr), pv.2))

/-- Modelled from the spec: `unflatten(flat_mapping, separator)`
(spec §4.2, `DataUtils.unflatten` in `docs/data_utils.md`): splits each
composite key into a path, then replays `set` for each entry against an
initially empty structure whose kind — like that of every intermediate
container — is inferred from whether the relevant accessor is a
non-negative integer string. -/
def unflatten (flat : List (String × Node)) (sep : Char) : Except Err Node :=
  let entries := flat.map (fun kv => ((splitParts sep kv.1).map parseAcc, kv.2))
  match entries with
  | [] => Except.ok (Node.map [])
  | (p, _) :: _ =>
      let init : Node :=
        match p.head? with
        | some (Accessor.idx _) => Node.seq []
        | _ => Node.map []
      entries.foldlM (fun acc e => nset acc e.1 e.2) init

theorem assocGet_assocSet_self (m : List (String × Node)) (k : String) (v : Node) :
    assocGet (assocSet m k v) k = some v := by
  induction m with
  | nil => simp [assocSet, assocGet]
  | cons h t ih =>
      obtain ⟨k', v'⟩ := h
      by_cases hk : k' = k
      · simp [assocSet, assocGet, hk]
      · simp [assocSet, assocGet, hk, ih]

theorem assocGet_assocSet_ne (m : List (String × Node)) (k k' : String) (v : Node)
    (h : k' ≠ k) : assocGet (assocSet m k v) k' = assocGet m k' := by
  induction m with
  | nil => simp [assocSet, assocGet, Ne.symm h]
  | cons hd t ih =>
      obtain ⟨k0, v0⟩ := hd
      by_cases hk : k0 = k
      · subst hk
        simp [assocSet, assocGet, Ne.symm h]
      · simp [assocSet, assocGet, hk, ih]

theorem assocSet_assocSet_self (m : List (String × Node)) (k : String) (v w : Node) :
    assocSet (assocSet m k v) k w = assocSet m k w := by
  induction m with
  | nil => simp [assocSet]
  | cons h t ih =>
      obtain ⟨k', v'⟩ := h
      by_cases hk : k' = k
      · simp [assocSet, hk]
      · simp [assocSet, hk, ih]

theorem assocSet_self (m : List (String × Node)) (k : String) (v : Node)
    (h : assocGet m k = some v) : assocSet m k v = m := by
  induction m with
  | nil => simp [assocGet] at h
  | cons hd t ih =>
      obtain ⟨k', v'⟩ := hd
      by_cases hk : k' = k
      · simp [assocGet, hk] at h
        simp [assocSet, hk, h]
      · simp [assocGet, hk] at h
        simp [assocSet, hk, ih h]

theorem assocSet_of_absent (m : List (String × Node)) (k : String) (v : Node)
    (h : assocGet m k = Option.none) : assocSet m k v = m ++ [(k, v)] := by
  induction m with
  | nil => simp [assocSet]
  | cons hd t ih =>
      obtain ⟨k', v'⟩ := hd
      by_cases hk : k' = k
      · simp [assocGet, hk] at h
      · simp [assocGet, hk] at h
        simp [assocSet, hk, ih h]

theorem assocSet_keys_of_present (m : List (String × Node)) (k : String) (v w : Node)
    (h : assocGet m k = some w) :
    (assocSet m k v).map Prod.fst = m.map Prod.fst := by
  induction m with
  | nil => simp [assocGet] at h
  | cons hd t ih =>
      obtain ⟨k', v'⟩ := hd
      by_cases hk : k' = k
      · simp [assocSet, hk]
      · simp [assocGet, hk] at h
        simp [assocSet, hk, ih h]

theorem extendNulls_of_le (s : List Node) (n : Nat) (h : n ≤ s.length) :
    extendNulls s n = s := by
  simp [extendNulls, Nat.sub_eq_zero_of_le h]

theorem extendNulls_succ_self (s : List Node) :
    extendNulls s (s.length + 1) = s ++ [Node.null] := by
  simp [extendNulls]

/-- C5: for every structure, each of the mutating operations `nset`,
`ninsert` and `npop` fails with a `ValueError` when called with an empty
path (empty indices list). -/
theorem mutating_ops_empty_path_value_error (x v : Node) (d : Option Node) :
    nset x [] v = Except.error (Err.valueError emptyIndicesMsg) ∧
    ninsert x [] v = Except.error (Err.valueError emptyIndicesMsg) ∧
    npop x [] d = Except.error (Err.valueError emptyIndicesMsg) := by
  refine ⟨?_, ?_, ?_⟩ <;> simp [nset, ninsert, npop]

theorem extendNulls_set_oob (s : List Node) (i : Nat) (v : Node) (h : s.length ≤ i) :
    (extendNulls s (i + 1)).set i v
      = s ++ List.replicate (i - s.length) Node.null ++ [v] := by
  have h1 : i + 1 - s.length = (i - s.length) + 1 := by omega
  rw [extendNulls, h1, List.replicate_succ']
  rw [show s ++ (List.replicate (i - s.length) Node.null ++ [Node.null])
        = (s ++ List.replicate (i - s.length) Node.null) ++ [Node.null] by
      simp [List.append_assoc]]
  have hlen : (s ++ List.replicate (i - s.length) Node.null).length = i := by
    simp; omega
  rw [List.set_append, if_neg (by omega), hlen]
  simp

/-- C4: when the target index of the final accessor is at or beyond the end
of the sequence, `nset` (and `ninsert`) extends the sequence so that every
skipped position is filled with the `null` ("absent") placeholder and the
value lands at the target index; in particular setting index 4 of `[1, 2]`
to `99` yields `[1, 2, null, null, 99]`. -/
theorem nset_oob_index_fills_nulls (s : List Node) (i : Nat) (v : Node)
    (h : s.length ≤ i) :
    nset (Node.seq s) [Accessor.idx i] v
      = Except.ok (Node.seq (s ++ List.replicate (i - s.length) Node.null ++ [v])) ∧
    ninsert (Node.seq s) [Accessor.idx i] v
      = Except.ok (Node.seq (s ++ List.replicate (i - s.length) Node.null ++ [v])) ∧
    nset (Node.map [("a", Node.seq [Node.int 1, Node.int 2])])
        [Accessor.key "a", Accessor.idx 4] (Node.int 99)
      = Except.ok (Node.map [("a", Node.seq
          [Node.int 1, Node.int 2, Node.null, Node.null, Node.int 99])]) := by
  refine ⟨?_, ?_, by rfl⟩ <;>
    simp [nset, ninsert, setLast, extendNulls_set_oob s i v h]

theorem nset_oob_index_fills_nulls_witness :
    ([Node.int 1, Node.int 2] : List Node).length ≤ 4 ∧
    nset (Node.seq [Node.int 1, Node.int 2]) [Accessor.idx 4] (Node.int 99)
      = Except.ok (Node.seq
          [Node.int 1, Node.int 2, Node.null, Node.null, Node.int 99]) := by
  refine ⟨by decide, ?_⟩
  have h := (nset_oob_index_fills_nulls [Node.int 1, Node.int 2] 4 (Node.int 99)
    (by decide)).1
  simpa using h

/-- C10 (amended scope none — confirmed): when the final accessor of
`ninsert` addresses an existing mapping key, the value is overwritten in
place (same key order, other values untouched); when it addresses a
sequence index strictly below the length, the element at that index is
replaced positionally with nothing shifted; when the index equals the
length, the value is appended. -/
theorem ninsert_final_overwrites_in_place (m : List (String × Node)) (k : String)
    (s : List Node) (i j : Nat) (v w : Node) :
    ((assocGet m k).isSome = true →
      ∃ m', ninsert (Node.map m) [Accessor.key k] v = Except.ok (Node.map m')
        ∧ m'.map Prod.fst = m.map Prod.fst
        ∧ assocGet m' k = some v
        ∧ ∀ k', k' ≠ k → assocGet m' k' = assocGet m k')
    ∧ (i < s.length → ninsert (Node.seq s) [Accessor.idx i] w
        = Except.ok (Node.seq (s.set i w)))
    ∧ (j = s.length → ninsert (Node.seq s) [Accessor.idx j] w
        = Except.ok (Node.seq (s ++ [w]))) := by
  refine ⟨?_, ?_, ?_⟩
  · intro hk
    obtain ⟨w0, hw0⟩ := Option.isSome_iff_exists.mp hk
    refine ⟨assocSet m k v, by simp [ninsert, nset, setLast], ?_, ?_, ?_⟩
    · exact assocSet_keys_of_present m k v w0 hw0
    · exact assocGet_assocSet_self m k v
    · intro k' hk'
      exact assocGet_assocSet_ne m k k' v hk'
  · intro hi
    simp [ninsert, nset, setLast, extendNulls_of_le s (i + 1) (by omega)]
  · intro hj
    subst hj
    simp [ninsert, nset, setLast, extendNulls_succ_self,
      List.set_append, List.length_append]

theorem ninsert_final_overwrites_in_place_witness :
    (assocGet [("b", Node.int 2), ("c", Node.int 3)] "b").isSome = true ∧
    (∃ m', ninsert (Node.map [("b", Node.int 2), ("c", Node.int 3)])
        [Accessor.key "b"] (Node.int 9) = Except.ok (Node.map m')
      ∧ m'.map Prod.fst
          = ([("b", Node.int 2), ("c", Node.int 3)] : List (String × Node)).map Prod.fst
      ∧ assocGet m' "b" = some (Node.int 9)
      ∧ ∀ k', k' ≠ "b" →
          assocGet m' k' = assocGet [("b", Node.int 2), ("c", Node.int 3)] k')
    ∧ (1 < ([Node.int 1, Node.int 2] : List Node).length)
    ∧ ninsert (Node.seq [Node.int 1, Node.int 2]) [Accessor.idx 1] (Node.int 9)
        = Except.ok (Node.seq ([Node.int 1, Node.int 2].set 1 (Node.int 9)))
    ∧ (2 = ([Node.int 1, Node.int 2] : List Node).length)
    ∧ ninsert (Node.seq [Node.int 1, Node.int 2]) [Accessor.idx 2] (Node.int 9)
        = Except.ok (Node.seq ([Node.int 1, Node.int 2] ++ [Node.int 9])) := by
  have h := ninsert_final_overwrites_in_place
    [("b", Node.int 2), ("c", Node.int 3)] "b" [Node.int 1, Node.int 2] 1 2
    (Node.int 9) (Node.int 9)
  exact ⟨by decide, h.1 (by decide), by decide, h.2.1 (by decide),
    by decide, h.2.2 (by decide)⟩

/-- C3 (amended): when a path does not resolve, `nget` returns the
caller-supplied default when one is given; with no default it fails with a
`LookupError` carrying the fixed message
`"Target not found and no default value provided."`, whichever accessor
was the first invalid one. -/
theorem nget_default_or_fixed_lookup_error (x : Node) (p : List Accessor) (d : Node)
    (h : navigate x p = Option.none) :
    nget x p (some d) = Except.ok d ∧
    nget x p Option.none = Except.error (Err.lookupError targetNotFoundMsg) := by
  match p with
  | [] => simp [navigate] at h
  | a :: rest => exact ⟨by simp [nget, h], by simp [nget, h]⟩

theorem nget_default_or_fixed_lookup_error_witness :
    navigate (Node.map [("a", Node.map [("b", Node.int 2)])])
        [Accessor.key "a", Accessor.key "c"] = Option.none ∧
    nget (Node.map [("a", Node.map [("b", Node.int 2)])])
        [Accessor.key "a", Accessor.key "c"] (some (Node.int 10))
      = Except.ok (Node.int 10) ∧
    nget (Node.map [("a", Node.map [("b", Node.int 2)])])
        [Accessor.key "a", Accessor.key "c"] Option.none
      = Except.error (Err.lookupError targetNotFoundMsg) := by
  have h := nget_default_or_fixed_lookup_error
    (Node.map [("a", Node.map [("b", Node.int 2)])])
    [Accessor.key "a", Accessor.key "c"] (Node.int 10) (by rfl)
  exact ⟨by rfl, h.1, h.2⟩

/-- C3 is refuted in its message clause: two failures whose first invalid
accessors differ (`"c"` versus `"zzz"`) produce the identical fixed
`LookupError` message, and that message does not even contain the
character `c` of the invalid accessor — so the message cannot identify the
first invalid accessor. -/
theorem nget_error_message_not_accessor_specific :
    nget (Node.map [("a", Node.map [("b", Node.int 2)])])
        [Accessor.key "a", Accessor.key "c"] Option.none
      = Except.error (Err.lookupError targetNotFoundMsg) ∧
    nget (Node.map [("a", Node.map [("b", Node.int 2)])])
        [Accessor.key "zzz"] Option.none
      = Except.error (Err.lookupError targetNotFoundMsg) ∧
    targetNotFoundMsg.data.contains 'c' = false ∧
    targetNotFoundMsg.data.contains 'z' = false :=
  ⟨rfl, rfl, rfl, rfl⟩

theorem navigate_cons (x : Node) (a : Accessor) (rest : List Accessor) :
    navigate x (a :: rest) = (resolve x a).bind (fun c => navigate c rest) := rfl

theorem npopGo_eq_none (x : Node) (p : List Accessor)
    (h : navigate x p = Option.none) : npopGo x p = Option.none := by
  induction p generalizing x with
  | nil => simp [navigate] at h
  | cons a rest ih =>
    cases rest with
    | nil =>
      cases x <;> cases a <;> first
        | rfl
        | (simp [navigate, resolve] at h; simp [npopGo, h])
    | cons b rest' =>
      cases x with
      | map m =>
        cases a with
        | key k =>
          rw [navigate_cons] at h
          cases hc : assocGet m k with
          | none => simp [npopGo, hc]
          | some c =>
            rw [show resolve (Node.map m) (Accessor.key k) = assocGet m k from rfl,
              hc] at h
            have h2 : navigate c (b :: rest') = Option.none := by simpa using h
            simp [npopGo, hc, ih c h2]
        | idx i => rfl
      | seq s =>
        cases a with
        | idx i =>
          rw [navigate_cons] at h
          have hres : resolve (Node.seq s) (Accessor.idx i) = s[i]? := by
            simp [resolve]
          rw [hres] at h
          cases hc : s[i]? with
          | none => simp [npopGo, hc]
          | some c =>
            rw [hc] at h
            have h2 : navigate c (b :: rest') = Option.none := by simpa using h
            simp [npopGo, hc, ih c h2]
        | key k => rfl
      | null => rfl
      | int n => rfl
      | str t => rfl

/-- C9: when the path does not resolve, `npop` with a default returns that
default and leaves the structure entirely unchanged; nothing is removed or
modified on the failure path. -/
theorem npop_default_leaves_unchanged (x : Node) (p : List Accessor) (d : Node)
    (h : navigate x p = Option.none) :
    npop x p (some d) = Except.ok (d, x) := by
  have h2 := npopGo_eq_none x p h
  match p with
  | [] => simp [navigate] at h
  | a :: rest => simp [npop, h2]

theorem npop_default_leaves_unchanged_witness :
    navigate (Node.map [("a", Node.map [("b", Node.int 2)])])
        [Accessor.key "a", Accessor.key "c"] = Option.none ∧
    npop (Node.map [("a", Node.map [("b", Node.int 2)])])
        [Accessor.key "a", Accessor.key "c"] (some (Node.int 10))
      = Except.ok (Node.int 10, Node.map [("a", Node.map [("b", Node.int 2)])]) :=
  ⟨rfl, npop_default_leaves_unchanged
    (Node.map [("a", Node.map [("b", Node.int 2)])])
    [Accessor.key "a", Accessor.key "c"] (Node.int 10) rfl⟩

theorem isContainer_of_navigate_cons (c : Node) (b : Accessor) (l : List Accessor)
    (w : Node) (h : navigate c (b :: l) = some w) : isContainer c = true := by
  cases c <;> cases b <;>
    simp [navigate_cons, resolve, isContainer] at h ⊢

theorem nset_navigate_of_valid (p : List Accessor) : ∀ (x v w : Node),
    navigate x p = some w → p ≠ [] →
    ∃ x', nset x p v = Except.ok x' ∧ navigate x' p = some v := by
  induction p with
  | nil => intro x v w h hp; exact absurd rfl hp
  | cons a rest ih =>
    intro x v w h _
    cases rest with
    | nil =>
      cases x with
      | map m =>
        cases a with
        | key k =>
          refine ⟨Node.map (assocSet m k v), by simp [nset, setLast], ?_⟩
          rw [navigate_cons]
          simp [resolve, assocGet_assocSet_self, navigate]
        | idx i => rw [navigate_cons] at h; simp [resolve] at h
      | seq s =>
        cases a with
        | idx i =>
          rw [navigate_cons] at h
          have hres : resolve (Node.seq s) (Accessor.idx i) = s[i]? := by
            simp [resolve]
          rw [hres] at h
          have hi : i < s.length := by
            cases hc : s[i]? with
            | none => rw [hc] at h; simp at h
            | some c => exact (List.getElem?_eq_some_iff.mp hc).1
          refine ⟨Node.seq ((extendNulls s (i + 1)).set i v),
            by simp [nset, setLast], ?_⟩
          rw [navigate_cons]
          rw [show extendNulls s (i + 1) = s from extendNulls_of_le s (i + 1) (by omega)]
          simp [resolve, navigate, List.getElem?_set_self hi]
        | key k => rw [navigate_cons] at h; simp [resolve] at h
      | null => rw [navigate_cons] at h; simp [resolve] at h
      | int n => rw [navigate_cons] at h; simp [resolve] at h
      | str t => rw [navigate_cons] at h; simp [resolve] at h
    | cons b rest' =>
      cases x with
      | map m =>
        cases a with
        | key k =>
          rw [navigate_cons] at h
          rw [show resolve (Node.map m) (Accessor.key k) = assocGet m k from rfl] at h
          cases hc : assocGet m k with
          | none => rw [hc] at h; simp at h
          | some c =>
            rw [hc] at h
            have hnav : navigate c (b :: rest') = some w := by simpa using h
            obtain ⟨x', hset, hnav'⟩ := ih c v w hnav (by simp)
            refine ⟨Node.map (assocSet m k x'), ?_, ?_⟩
            · simp [nset, hc, hset, Except.map]
            · rw [navigate_cons]
              rw [show resolve (Node.map (assocSet m k x')) (Accessor.key k)
                    = some x' by simp [resolve, assocGet_assocSet_self]]
              simpa using hnav'
        | idx i => rw [navigate_cons] at h; simp [resolve] at h
      | seq s =>
        cases a with
        | idx i =>
          rw [navigate_cons] at h
          have hres : resolve (Node.seq s) (Accessor.idx i) = s[i]? := by
            simp [resolve]
          rw [hres] at h
          cases hc : s[i]? with
          | none => rw [hc] at h; simp at h
          | some c =>
            rw [hc] at h
            have hnav : navigate c (b :: rest') = some w := by simpa using h
            have hi : i < s.length := (List.getElem?_eq_some_iff.mp hc).1
            have hcont : isContainer c = true :=
              isContainer_of_navigate_cons c b rest' w hnav
            obtain ⟨x', hset, hnav'⟩ := ih c v w hnav (by simp)
            refine ⟨Node.seq (s.set i x'), ?_, ?_⟩
            · have hext : extendNulls s (i + 1) = s :=
                extendNulls_of_le s (i + 1) (by omega)
              have hgd : s.getD i Node.null = c := by
                simp [List.getD_eq_getElem?_getD, hc]
              simp [nset, hext, hgd, hcont, hset, hc, Except.map]
            · rw [navigate_cons]
              rw [show resolve (Node.seq (s.set i x')) (Accessor.idx i) = some x' by
                simp [resolve, List.getElem?_set_self hi]]
              simpa using hnav'
        | key k => rw [navigate_cons] at h; simp [resolve] at h
      | null => rw [navigate_cons] at h; simp [resolve] at h
      | int n => rw [navigate_cons] at h; simp [resolve] at h
      | str t => rw [navigate_cons] at h; simp [resolve] at h

/-- C1: for every structure, every valid non-empty path into it, and every
value, setting the value with `nset` at that path and then reading it back
with `nget` (no default) returns exactly that value. -/
theorem nget_after_nset (x v w : Node) (p : List Accessor)
    (hp : p ≠ []) (h : navigate x p = some w) :
    ∃ x', nset x p v = Except.ok x' ∧ nget x' p Option.none = Except.ok v := by
  obtain ⟨x', h1, h2⟩ := nset_navigate_of_valid p x v w h hp
  refine ⟨x', h1, ?_⟩
  match p, hp with
  | a :: rest, _ => simp [nget, h2]

theorem nget_after_nset_witness :
    ([Accessor.key "a", Accessor.key "b"] : List Accessor) ≠ [] ∧
    navigate (Node.map [("a", Node.map [("b", Node.int 2)])])
        [Accessor.key "a", Accessor.key "b"] = some (Node.int 2) ∧
    ∃ x', nset (Node.map [("a", Node.map [("b", Node.int 2)])])
          [Accessor.key "a", Accessor.key "b"] (Node.int 99) = Except.ok x' ∧
      nget x' [Accessor.key "a", Accessor.key "b"] Option.none
        = Except.ok (Node.int 99) :=
  ⟨by simp, rfl, nget_after_nset
    (Node.map [("a", Node.map [("b", Node.int 2)])]) (Node.int 99) (Node.int 2)
    [Accessor.key "a", Accessor.key "b"] (by simp) rfl⟩

mutual
/-- Well-formedness of a structure as a Python value: every mapping in it
has pairwise-distinct keys (Python dicts cannot hold a key twice). -/
def wfNode : Node → Bool
  | Node.map m => wfEntries m
  | Node.seq s => wfItems s
  | _ => true

/-- Well-formedness of mapping entries: distinct keys, recursively. -/
def wfEntries : List (String × Node) → Bool
  | [] => true
  | (k, v) :: rest =>
      (rest.map Prod.fst).all (fun k2 => k2 != k) && wfNode v && wfEntries rest

/-- Well-formedness of sequence items. -/
def wfItems : List Node → Bool
  | [] => true
  | v :: rest => wfNode v && wfItems rest
end

theorem assocGet_eq_none_of_all_ne (m : List (String × Node)) (k : String)
    (h : (m.map Prod.fst).all (fun k2 => k2 != k) = true) :
    assocGet m k = Option.none := by
  induction m with
  | nil => rfl
  | cons hd t ih =>
      obtain ⟨k', v'⟩ := hd
      rw [List.map_cons, List.all_cons] at h
      simp only [Bool.and_eq_true] at h
      have hne : ¬k' = k := by simpa using h.1
      simp [assocGet, hne, ih h.2]

theorem assocGet_assocRemove_self (m : List (String × Node)) (k : String)
    (h : wfEntries m = true) :
    assocGet (assocRemove m k) k = Option.none := by
  induction m with
  | nil => rfl
  | cons hd t ih =>
      obtain ⟨k', v'⟩ := hd
      rw [wfEntries] at h
      simp only [Bool.and_eq_true] at h
      by_cases hk : k' = k
      · subst hk
        simp only [assocRemove, if_pos rfl]
        exact assocGet_eq_none_of_all_ne t k' h.1.1
      · simp [assocRemove, hk, assocGet, ih h.2]

theorem wfNode_map_child (m : List (String × Node)) (k : String) (c : Node)
    (hwf : wfEntries m = true) (hc : assocGet m k = some c) : wfNode c = true := by
  induction m with
  | nil => simp [assocGet] at hc
  | cons hd t ih =>
      obtain ⟨k', v'⟩ := hd
      rw [wfEntries] at hwf
      simp only [Bool.and_eq_true] at hwf
      by_cases hk : k' = k
      · simp [assocGet, hk] at hc
        exact hc ▸ hwf.1.2
      · simp [assocGet, hk] at hc
        exact ih hwf.2 hc

theorem wfNode_seq_child (s : List Node) (i : Nat) (c : Node)
    (hwf : wfItems s = true) (hc : s[i]? = some c) : wfNode c = true := by
  induction s generalizing i with
  | nil => simp at hc
  | cons v t ih =>
      rw [wfItems] at hwf
      simp only [Bool.and_eq_true] at hwf
      cases i with
      | zero => simp at hc; exact hc ▸ hwf.1
      | succ j => simp at hc; exact ih j hwf.2 hc

/-- The final accessor of the path addresses a mapping key, or the last
index of its parent sequence: the condition under which removal leaves
nothing behind at the addressed position. -/
def lastAccessorOk : Node → List Accessor → Bool
  | Node.map _, [Accessor.key _] => true
  | Node.seq s, [Accessor.idx i] => i + 1 == s.length
  | Node.map m, Accessor.key k :: b :: rest =>
      (match assocGet m k with
        | some c => lastAccessorOk c (b :: rest)
        | Option.none => false)
  | Node.seq s, Accessor.idx i :: b :: rest =>
      (match s.get? i with
        | some c => lastAccessorOk c (b :: rest)
        | Option.none => false)
  | _, _ => false

theorem npop_navigate_none (p : List Accessor) : ∀ (x v x' : Node),
    wfNode x = true → npopGo x p = some (v, x') → lastAccessorOk x p = true →
    navigate x' p = Option.none := by
  induction p with
  | nil => intro x v x' _ hok _; simp [npopGo] at hok
  | cons a rest ih =>
    intro x v x' hwf hok hlast
    cases rest with
    | nil =>
      cases x with
      | map m =>
        cases a with
        | key k =>
          cases hc : assocGet m k with
          | none => simp [npopGo, hc] at hok
          | some w =>
            simp [npopGo, hc] at hok
            rw [navigate_cons, ← hok.2]
            rw [show resolve (Node.map (assocRemove m k)) (Accessor.key k)
                  = assocGet (assocRemove m k) k from rfl]
            rw [assocGet_assocRemove_self m k (by rw [wfNode] at hwf; exact hwf)]
            rfl
        | idx i => simp [npopGo] at hok
      | seq s =>
        cases a with
        | idx i =>
          have hlen : i + 1 = s.length := by
            simp [lastAccessorOk] at hlast
            exact hlast
          cases hc : s[i]? with
          | none => simp [npopGo, hc] at hok
          | some w =>
            simp [npopGo, hc] at hok
            rw [navigate_cons, ← hok.2]
            have : (s.eraseIdx i)[i]? = Option.none := by
              apply List.getElem?_eq_none
              rw [List.length_eraseIdx]
              simp only [if_pos (by omega : i < s.length)]
              omega
            rw [show resolve (Node.seq (s.eraseIdx i)) (Accessor.idx i)
                  = (s.eraseIdx i)[i]? by simp [resolve]]
            rw [this]
            rfl
        | key k => simp [npopGo] at hok
      | null => simp [npopGo] at hok
      | int n => simp [npopGo] at hok
      | str t => simp [npopGo] at hok
    | cons b rest' =>
      cases x with
      | map m =>
        cases a with
        | key k =>
          cases hc : assocGet m k with
          | none => simp [npopGo, hc] at hok
          | some c =>
            cases hd : npopGo c (b :: rest') with
            | none => simp [npopGo, hc, hd] at hok
            | some vc =>
              obtain ⟨v0, c'⟩ := vc
              simp [npopGo, hc, hd] at hok
              simp only [lastAccessorOk, hc] at hlast
              have hwfc : wfNode c = true :=
                wfNode_map_child m k c (by rw [wfNode] at hwf; exact hwf) hc
              have hnav := ih c v0 c' hwfc hd hlast
              rw [navigate_cons, ← hok.2]
              rw [show resolve (Node.map (assocSet m k c')) (Accessor.key k)
                    = assocGet (assocSet m k c') k from rfl]
              rw [assocGet_assocSet_self]
              simpa using hnav
        | idx i => simp [npopGo] at hok
      | seq s =>
        cases a with
        | idx i =>
          cases hc : s[i]? with
          | none => simp [npopGo, hc] at hok
          | some c =>
            cases hd : npopGo c (b :: rest') with
            | none => simp [npopGo, hc, hd] at hok
            | some vc =>
              obtain ⟨v0, c'⟩ := vc
              simp [npopGo, hc, hd] at hok
              have hi : i < s.length := (List.getElem?_eq_some_iff.mp hc).1
              rw [lastAccessorOk] at hlast
              rw [show s.get? i = s[i]? from List.get?_eq_getElem? s i, hc] at hlast
              simp only [] at hlast
              have hwfc : wfNode c = true :=
                wfNode_seq_child s i c (by rw [wfNode] at hwf; exact hwf) hc
              have hnav := ih c v0 c' hwfc hd hlast
              rw [navigate_cons, ← hok.2]
              rw [show resolve (Node.seq (s.set i c')) (Accessor.idx i)
                    = (s.set i c')[i]? by simp [resolve]]
              rw [List.getElem?_set_self hi]
              simpa using hnav
        | key k => simp [npopGo] at hok
      | null => simp [npopGo] at hok
      | int n => simp [npopGo] at hok
      | str t => simp [npopGo] at hok

/-- C7 (amended): if `npop` succeeds in removing the value at a path of a
well-formed structure and the final accessor is a mapping key or the last
index of its parent sequence, then `nget` on the mutated structure with
the same path and no default fails with a `LookupError`.  (For a non-final
sequence index the claim fails: later elements shift left and `nget`
returns the shifted-in element.) -/
theorem nget_after_npop (x v x' : Node) (p : List Accessor)
    (hwf : wfNode x = true) (hok : npopGo x p = some (v, x'))
    (hlast : lastAccessorOk x p = true) :
    npop x p Option.none = Except.ok (v, x') ∧
    nget x' p Option.none = Except.error (Err.lookupError targetNotFoundMsg) := by
  have hp : p ≠ [] := by
    intro he; subst he; simp [npopGo] at hok
  have hnav := npop_navigate_none p x v x' hwf hok hlast
  constructor
  · match p, hp with
    | a :: rest, _ => simp [npop, hok]
  · match p, hp with
    | a :: rest, _ => simp [nget, hnav]

theorem nget_after_npop_witness :
    wfNode (Node.map [("a", Node.map [("b", Node.int 2), ("c", Node.int 3)])]) = true ∧
    npopGo (Node.map [("a", Node.map [("b", Node.int 2), ("c", Node.int 3)])])
        [Accessor.key "a", Accessor.key "b"]
      = some (Node.int 2, Node.map [("a", Node.map [("c", Node.int 3)])]) ∧
    lastAccessorOk (Node.map [("a", Node.map [("b", Node.int 2), ("c", Node.int 3)])])
        [Accessor.key "a", Accessor.key "b"] = true ∧
    npop (Node.map [("a", Node.map [("b", Node.int 2), ("c", Node.int 3)])])
        [Accessor.key "a", Accessor.key "b"] Option.none
      = Except.ok (Node.int 2, Node.map [("a", Node.map [("c", Node.int 3)])]) ∧
    nget (Node.map [("a", Node.map [("c", Node.int 3)])])
        [Accessor.key "a", Accessor.key "b"] Option.none
      = Except.error (Err.lookupError targetNotFoundMsg) := by
  have hwf : wfNode (Node.map [("a", Node.map [("b", Node.int 2), ("c", Node.int 3)])])
      = true := by
    simp [wfNode, wfEntries]
  have h := nget_after_npop
    (Node.map [("a", Node.map [("b", Node.int 2), ("c", Node.int 3)])])
    (Node.int 2) (Node.map [("a", Node.map [("c", Node.int 3)])])
    [Accessor.key "a", Accessor.key "b"] hwf rfl rfl
  exact ⟨hwf, rfl, rfl, h.1, h.2⟩

/-- C7 is refuted as originally stated: popping index 0 of the sequence
`[1, 2]` succeeds and returns `1`, the remaining element shifts into index
0, and the subsequent `nget` on the same path succeeds with `2` instead of
failing with a `LookupError`. -/
theorem npop_then_nget_shifted :
    npop (Node.seq [Node.int 1, Node.int 2]) [Accessor.idx 0] Option.none
      = Except.ok (Node.int 1, Node.seq [Node.int 2]) ∧
    nget (Node.seq [Node.int 2]) [Accessor.idx 0] Option.none
      = Except.ok (Node.int 2) :=
  ⟨rfl, rfl⟩

theorem sizeOf_lt_of_mem_entries (m : List (String × Node)) (k : String) (v : Node)
    (h : (k, v) ∈ m) : sizeOf v < sizeOf (Node.map m) := by
  have h1 := List.sizeOf_lt_of_mem h
  simp only [Prod.mk.sizeOf_spec] at h1
  simp only [Node.map.sizeOf_spec]
  omega

theorem sizeOf_lt_of_mem_items (s : List Node) (v : Node)
    (h : v ∈ s) : sizeOf v < sizeOf (Node.seq s) := by
  have h1 := List.sizeOf_lt_of_mem h
  simp only [Node.seq.sizeOf_spec]
  omega

theorem node_ind_aux (P : Node → Prop)
    (hnull : P Node.null) (hint : ∀ n, P (Node.int n)) (hstr : ∀ t, P (Node.str t))
    (hmap : ∀ m, (∀ k v, (k, v) ∈ m → P v) → P (Node.map m))
    (hseq : ∀ s, (∀ v ∈ s, P v) → P (Node.seq s)) :
    ∀ n x, sizeOf x < n → P x := by
  intro n
  induction n with
  | zero => intro x h; omega
  | succ n ih =>
      intro x h
      cases x with
      | null => exact hnull
      | int i => exact hint i
      | str t => exact hstr t
      | map m =>
          refine hmap m (fun k v hv => ih v ?_)
          have := sizeOf_lt_of_mem_entries m k v hv
          omega
      | seq s =>
          refine hseq s (fun v hv => ih v ?_)
          have := sizeOf_lt_of_mem_items s v hv
          omega

/-- Structural induction over nested structures, with the inductive
hypothesis available for every mapping value and sequence item. -/
theorem node_ind (P : Node → Prop)
    (hnull : P Node.null) (hint : ∀ n, P (Node.int n)) (hstr : ∀ t, P (Node.str t))
    (hmap : ∀ m, (∀ k v, (k, v) ∈ m → P v) → P (Node.map m))
    (hseq : ∀ s, (∀ v ∈ s, P v) → P (Node.seq s)) : ∀ x, P x :=
  fun x => node_ind_aux P hnull hint hstr hmap hseq (sizeOf x + 1) x (by omega)

theorem nfilterEntries_id (c : Node → Bool) (hc : ∀ y, c y = true)
    (m : List (String × Node)) (hm : ∀ k v, (k, v) ∈ m → nfilterVal c v = v) :
    nfilterEntries c m = m := by
  induction m with
  | nil => simp [nfilterEntries]
  | cons hd t ih =>
      obtain ⟨k, v⟩ := hd
      have hv : (if isContainer v = true then nfilterVal c v else v) = v := by
        by_cases hcont : isContainer v = true
        · simp [hcont, hm k v (by simp)]
        · simp [hcont]
      simp [nfilterEntries, hc v, hv,
        ih (fun k' v' h' => hm k' v' (by simp [h']))]

theorem nfilterItems_id (c : Node → Bool) (hc : ∀ y, c y = true)
    (s : List Node) (hs : ∀ v ∈ s, nfilterVal c v = v) :
    nfilterItems c s = s := by
  induction s with
  | nil => simp [nfilterItems]
  | cons v t ih =>
      have hv : (if isContainer v = true then nfilterVal c v else v) = v := by
        by_cases hcont : isContainer v = true
        · simp [hcont, hs v (by simp)]
        · simp [hcont]
      simp [nfilterItems, hc v, hv, ih (fun v' h' => hs v' (by simp [h']))]

theorem nfilterVal_id (c : Node → Bool) (hc : ∀ y, c y = true) :
    ∀ x, nfilterVal c x = x := by
  refine node_ind (fun x => nfilterVal c x = x) ?_ ?_ ?_ ?_ ?_
  · simp [nfilterVal]
  · intro n; simp [nfilterVal]
  · intro t; simp [nfilterVal]
  · intro m hm
    simp [nfilterVal, nfilterEntries_id c hc m hm]
  · intro s hs
    simp [nfilterVal, nfilterItems_id c hc s hs]

/-- C8: filtering a mapping or sequence with a predicate that holds of
every element returns a structure equal to the input. -/
theorem nfilter_always_true (x : Node) (c : Node → Bool)
    (hc : ∀ y, c y = true) (hx : isContainer x = true) :
    nfilter x c = Except.ok x := by
  cases x with
  | map m =>
      simp [nfilter,
        nfilterEntries_id c hc m (fun k v _ => nfilterVal_id c hc v)]
  | seq s =>
      simp [nfilter, nfilterItems_id c hc s (fun v _ => nfilterVal_id c hc v)]
  | null => simp [isContainer] at hx
  | int n => simp [isContainer] at hx
  | str t => simp [isContainer] at hx

theorem nfilter_always_true_witness :
    (∀ y : Node, (fun _ => true) y = true) ∧
    isContainer (Node.map [("a", Node.int 1), ("e", Node.seq [Node.int 4, Node.int 5])])
      = true ∧
    nfilter (Node.map [("a", Node.int 1), ("e", Node.seq [Node.int 4, Node.int 5])])
        (fun _ => true)
      = Except.ok (Node.map [("a", Node.int 1), ("e", Node.seq [Node.int 4, Node.int 5])]) :=
  ⟨fun _ => rfl, rfl,
    nfilter_always_true
      (Node.map [("a", Node.int 1), ("e", Node.seq [Node.int 4, Node.int 5])])
      (fun _ => true) (fun _ => rfl) rfl⟩

/-- The condition of the nfilter notebook's Example 2: keep odd integers;
every non-integer element (containers included) satisfies it. -/
def keepOddInts : Node → Bool
  | Node.int n => n % 2 != 0
  | _ => true

/-- C6 is contradicted by the library's own recorded behaviour: on the
nfilter notebook's Example 2 input `[1, [2, [3, [4]]]]` with the
keep-odd-integers condition, the recorded (and modelled) output is
`[1, [[3, []]]]` — the sequence `[4]`, emptied by filtering, is retained
as an empty sequence value inside its parent instead of being dropped,
although the same notebook's Notes (and the spec) state that empty
containers resulting from filtering are omitted from the final result. -/
theorem nfilter_retains_emptied_container :
    nfilter (Node.seq [Node.int 1,
        Node.seq [Node.int 2, Node.seq [Node.int 3, Node.seq [Node.int 4]]]])
        keepOddInts
      = Except.ok (Node.seq [Node.int 1,
          Node.seq [Node.seq [Node.int 3, Node.seq []]]]) := by
  simp [nfilter, nfilterItems, nfilterVal, keepOddInts, isContainer]

theorem charToDigit_digitToChar (d : Nat) (h : d < 10) :
    charToDigit (digitToChar d) = d := by
  interval_cases d <;> rfl

theorem digitToChar_isDigit (d : Nat) : (digitToChar d).isDigit = true := by
  match d with
  | 0 | 1 | 2 | 3 | 4 | 5 | 6 | 7 | 8 => rfl
  | n + 9 => rfl

theorem charsToNat_append_singleton (xs : List Char) (c : Char) :
    charsToNat (xs ++ [c]) = 10 * charsToNat xs + charToDigit c := by
  simp [charsToNat, List.foldl_append]

theorem charsToNat_natDigitsAux (fuel n : Nat) (h : n < fuel) :
    charsToNat (natDigitsAux fuel n) = n := by
  induction fuel generalizing n with
  | zero => omega
  | succ f ih =>
      rw [natDigitsAux]
      by_cases hn : n < 10
      · simp [hn, charsToNat, charToDigit_digitToChar n hn]
      · have hdiv : n / 10 < f := by omega
        simp only [hn, if_false]
        rw [charsToNat_append_singleton, ih (n / 10) hdiv,
          charToDigit_digitToChar (n % 10) (by omega)]
        omega

theorem charsToNat_natChars (n : Nat) : charsToNat (natChars n) = n :=
  charsToNat_natDigitsAux (n + 1) n (by omega)

theorem natDigitsAux_ne_nil (fuel n : Nat) (h : n < fuel) :
    natDigitsAux fuel n ≠ [] := by
  cases fuel with
  | zero => omega
  | succ f =>
      rw [natDigitsAux]
      by_cases hn : n < 10
      · simp [hn]
      · simp [hn]

theorem natChars_ne_nil (n : Nat) : natChars n ≠ [] :=
  natDigitsAux_ne_nil (n + 1) n (by omega)

theorem natDigitsAux_all_digit (fuel n : Nat) :
    ∀ c ∈ natDigitsAux fuel n, c.isDigit = true := by
  induction fuel generalizing n with
  | zero => intro c hc; simp [natDigitsAux] at hc
  | succ f ih =>
      intro c hc
      rw [natDigitsAux] at hc
      by_cases hn : n < 10
      · simp [hn] at hc
        exact hc ▸ digitToChar_isDigit n
      · simp [hn] at hc
        rcases hc with hc | hc
        · exact ih (n / 10) c hc
        · exact hc ▸ digitToChar_isDigit (n % 10)

theorem natChars_all_digit (n : Nat) : ∀ c ∈ natChars n, c.isDigit = true :=
  natDigitsAux_all_digit (n + 1) n

theorem isDigitStr_natChars (n : Nat) :
    isDigitStr (String.mk (natChars n)) = true := by
  have h1 := natChars_ne_nil n
  have h2 := natChars_all_digit n
  rw [isDigitStr]
  rw [show (String.mk (natChars n)).data = natChars n from rfl]
  simp [List.all_eq_true, List.isEmpty_iff, h1]
  exact h2

theorem parseAcc_natChars (n : Nat) :
    parseAcc (String.mk (natChars n)) = Accessor.idx n := by
  rw [parseAcc, if_pos (isDigitStr_natChars n)]
  rw [show (String.mk (natChars n)).data = natChars n from rfl]
  rw [charsToNat_natChars]

theorem parseAcc_of_not_digit (k : String) (h : isDigitStr k = false) :
    parseAcc k = Accessor.key k := by
  simp [parseAcc, h]

mutual
/-- String-level side conditions for the flatten/unflatten round trip: no
mapping key anywhere in the structure is a digit string (such a key would
be re-parsed as a sequence index by `unflatten`), and the separator occurs
in no mapping key. -/
def goodStr (sep : Char) : Node → Bool
  | Node.map m => goodStrEntries sep m
  | Node.seq s => goodStrItems sep s
  | _ => true

/-- `goodStr` over mapping entries. -/
def goodStrEntries (sep : Char) : List (String × Node) → Bool
  | [] => true
  | (k, v) :: rest =>
      !isDigitStr k && !k.data.contains sep &&
      goodStr sep v && goodStrEntries sep rest

/-- `goodStr` over sequence items. -/
def goodStrItems (sep : Char) : List Node → Bool
  | [] => true
  | v :: rest => goodStr sep v && goodStrItems sep rest
end

/-- An accessor whose string form survives the join/split/parse round trip:
key accessors must be non-digit strings free of the separator. -/
def accOk (sep : Char) : Accessor → Bool
  | Accessor.key k => !isDigitStr k && !k.data.contains sep
  | Accessor.idx _ => true

/-- The flatten entries a child value contributes: its own flattening when
it is a non-empty container, the child itself as a single leaf otherwise. -/
def childEntries (v : Node) : List (List Accessor × Node) :=
  if shouldRecurse v then aflatten v else [([], v)]

/-- The empty container of the same kind as a given container. -/
def emptyLike : Node → Node
  | Node.map _ => Node.map []
  | Node.seq _ => Node.seq []
  | _ => Node.null

/-- Modelled from the spec: replaying `set` for a list of (path, value)
entries against an accumulator — the core loop of `unflatten`. -/
def replay (acc : Node) (E : List (List Accessor × Node)) : Except Err Node :=
  E.foldlM (fun a e => nset a e.1 e.2) acc

theorem replay_nil (acc : Node) : replay acc [] = Except.ok acc := rfl

theorem replay_cons (acc : Node) (e : List Accessor × Node)
    (E : List (List Accessor × Node)) :
    replay acc (e :: E)
      = (nset acc e.1 e.2).bind (fun a => replay a E) := by
  simp [replay, List.foldlM_cons]
  rfl

theorem replay_append (acc : Node) (E₁ E₂ : List (List Accessor × Node)) :
    replay acc (E₁ ++ E₂)
      = (replay acc E₁).bind (fun a => replay a E₂) := by
  simp [replay, List.foldlM_append]
  rfl

theorem aflatten_map_def (m : List (String × Node)) :
    aflatten (Node.map m) = aflattenEntries m := by
  simp [aflatten]

theorem aflatten_seq_def (s : List Node) :
    aflatten (Node.seq s) = aflattenItems s 0 := by
  simp [aflatten]

theorem aflattenEntries_cons (k : String) (v : Node) (rest : List (String × Node)) :
    aflattenEntries ((k, v) :: rest)
      = (childEntries v).map (fun pw => (Accessor.key k :: pw.1, pw.2))
        ++ aflattenEntries rest := by
  rw [aflattenEntries, childEntries]

theorem aflattenItems_cons (v : Node) (rest : List Node) (i : Nat) :
    aflattenItems (v :: rest) i
      = (childEntries v).map (fun pw => (Accessor.idx i :: pw.1, pw.2))
        ++ aflattenItems rest (i + 1) := by
  rw [aflattenItems, childEntries]

theorem childEntries_ne_nil (v : Node)
    (hrec : shouldRecurse v = true → aflatten v ≠ []) :
    childEntries v ≠ [] := by
  rw [childEntries]
  by_cases h : shouldRecurse v = true
  · simp [h, hrec h]
  · simp [h]

theorem aflatten_ne_nil (x : Node) (hx : shouldRecurse x = true) :
    aflatten x ≠ [] := by
  refine node_ind (fun x => shouldRecurse x = true → aflatten x ≠ []) ?_ ?_ ?_ ?_ ?_ x hx
  · intro h; simp [shouldRecurse, isContainer] at h
  · intro n h; simp [shouldRecurse, isContainer] at h
  · intro t h; simp [shouldRecurse, isContainer] at h
  · intro m hm h
    match m with
    | [] => simp [shouldRecurse, isEmptyContainer] at h
    | (k, v) :: rest =>
        rw [aflatten_map_def, aflattenEntries_cons]
        have hne := childEntries_ne_nil v (hm k v (by simp))
        intro habs
        rw [List.append_eq_nil] at habs
        exact hne (by simpa using habs.1)
  · intro s hs h
    match s with
    | [] => simp [shouldRecurse, isEmptyContainer] at h
    | v :: rest =>
        rw [aflatten_seq_def, aflattenItems_cons]
        have hne := childEntries_ne_nil v (hs v (by simp))
        intro habs
        rw [List.append_eq_nil] at habs
        exact hne (by simpa using habs.1)

theorem aflatten_first_map (m : List (String × Node)) (hm : m ≠ []) :
    ∃ k p' w E', aflatten (Node.map m) = (Accessor.key k :: p', w) :: E' := by
  match m with
  | (k, v) :: rest =>
      rw [aflatten_map_def, aflattenEntries_cons]
      have hne := childEntries_ne_nil v (fun h => aflatten_ne_nil v h)
      match hce : childEntries v with
      | [] => exact absurd hce hne
      | e0 :: cs =>
          exact ⟨k, e0.1, e0.2, cs.map (fun pw => (Accessor.key k :: pw.1, pw.2))
            ++ aflattenEntries rest, by simp⟩

theorem aflatten_first_seq (s : List Node) (hs : s ≠ []) :
    ∃ p' w E', aflatten (Node.seq s) = (Accessor.idx 0 :: p', w) :: E' := by
  match s with
  | v :: rest =>
      rw [aflatten_seq_def, aflattenItems_cons]
      have hne := childEntries_ne_nil v (fun h => aflatten_ne_nil v h)
      match hce : childEntries v with
      | [] => exact absurd hce hne
      | e0 :: cs =>
          exact ⟨e0.1, e0.2, cs.map (fun pw => (Accessor.idx 0 :: pw.1, pw.2))
            ++ aflattenItems rest 1, by simp⟩

theorem aflattenEntries_paths (m : List (String × Node)) :
    ∀ e ∈ aflattenEntries m, e.1 ≠ ([] : List Accessor) := by
  induction m with
  | nil => intro e he; simp [aflattenEntries] at he
  | cons hd rest ih =>
      obtain ⟨k, v⟩ := hd
      intro e he
      rw [aflattenEntries_cons] at he
      rw [List.mem_append] at he
      rcases he with he | he
      · obtain ⟨pw, _, hpw⟩ := List.mem_map.mp he
        rw [← hpw]
        simp
      · exact ih e he

theorem aflattenItems_paths (s : List Node) (i : Nat) :
    ∀ e ∈ aflattenItems s i, e.1 ≠ ([] : List Accessor) := by
  induction s generalizing i with
  | nil => intro e he; simp [aflattenItems] at he
  | cons v rest ih =>
      intro e he
      rw [aflattenItems_cons] at he
      rw [List.mem_append] at he
      rcases he with he | he
      · obtain ⟨pw, _, hpw⟩ := List.mem_map.mp he
        rw [← hpw]
        simp
      · exact ih (i + 1) e he

theorem aflatten_paths_ne_nil (x : Node) (hx : shouldRecurse x = true) :
    ∀ e ∈ aflatten x, e.1 ≠ ([] : List Accessor) := by
  cases x with
  | map m => rw [aflatten_map_def]; exact aflattenEntries_paths m
  | seq s => rw [aflatten_seq_def]; exact aflattenItems_paths s 0
  | null => simp [shouldRecurse, isContainer] at hx
  | int n => simp [shouldRecurse, isContainer] at hx
  | str t => simp [shouldRecurse, isContainer] at hx

theorem assocGet_append_of_absent (m : List (String × Node)) (k : String) (c : Node)
    (h : assocGet m k = Option.none) :
    assocGet (m ++ [(k, c)]) k = some c := by
  induction m with
  | nil => simp [assocGet]
  | cons hd t ih =>
      obtain ⟨k', v'⟩ := hd
      by_cases hk : k' = k
      · simp [assocGet, hk] at h
      · simp [assocGet, hk] at h ⊢
        exact ih h

theorem assocGet_append_of_ne (m : List (String × Node)) (k k' : String) (c : Node)
    (h : assocGet m k' = Option.none) (hk : k ≠ k') :
    assocGet (m ++ [(k, c)]) k' = Option.none := by
  induction m with
  | nil => simp [assocGet, hk]
  | cons hd t ih =>
      obtain ⟨k0, v0⟩ := hd
      by_cases h0 : k0 = k'
      · simp [assocGet, h0] at h
      · simp [assocGet, h0] at h ⊢
        exact ih h

theorem assocSet_append_self (m : List (String × Node)) (k : String) (a b : Node)
    (h : assocGet m k = Option.none) :
    assocSet (m ++ [(k, a)]) k b = m ++ [(k, b)] := by
  induction m with
  | nil => simp [assocSet]
  | cons hd t ih =>
      obtain ⟨k0, v0⟩ := hd
      by_cases h0 : k0 = k
      · simp [assocGet, h0] at h
      · simp [assocGet, h0] at h
        simp [assocSet, h0, ih h]

theorem list_set_append_last (s : List Node) (a b : Node) :
    (s ++ [a]).set s.length b = s ++ [b] := by
  rw [List.set_append, if_neg (by omega)]
  simp

theorem list_getElem?_append_last (s : List Node) (a : Node) :
    (s ++ [a])[s.length]? = some a := by
  rw [List.getElem?_append_right (by omega)]
  simp

theorem list_set_self_of_getElem? (s : List Node) (i : Nat) (c : Node)
    (h : s[i]? = some c) : s.set i c = s := by
  induction s generalizing i with
  | nil => simp at h
  | cons v t ih =>
      cases i with
      | zero => simp at h; simp [h]
      | succ j =>
          simp at h
          simp [List.set_cons_succ, ih j h]

theorem nset_map_ok (m : List (String × Node)) (p : List Accessor) (v y : Node)
    (h : nset (Node.map m) p v = Except.ok y) : ∃ m', y = Node.map m' := by
  match p with
  | [] => simp [nset] at h
  | [a] =>
      cases a with
      | key k =>
          simp [nset, setLast] at h
          exact ⟨assocSet m k v, h.symm⟩
      | idx i => simp [nset, setLast] at h
  | a :: b :: rest =>
      cases a with
      | key k =>
          rw [show nset (Node.map m) (Accessor.key k :: b :: rest) v
                = (nset (match assocGet m k with
                    | some c0 => c0
                    | Option.none => freshFor b) (b :: rest) v).map
                    (fun c' => Node.map (assocSet m k c')) from rfl] at h
          cases hs : nset (match assocGet m k with
              | some c0 => c0
              | Option.none => freshFor b) (b :: rest) v with
          | error e => rw [hs] at h; simp [Except.map] at h
          | ok c' =>
              rw [hs] at h
              simp [Except.map] at h
              exact ⟨assocSet m k c', h.symm⟩
      | idx i => simp [nset] at h

theorem nset_seq_ok (s : List Node) (p : List Accessor) (v y : Node)
    (h : nset (Node.seq s) p v = Except.ok y) : ∃ s', y = Node.seq s' := by
  match p with
  | [] => simp [nset] at h
  | [a] =>
      cases a with
      | idx i =>
          simp [nset, setLast] at h
          exact ⟨(extendNulls s (i + 1)).set i v, h.symm⟩
      | key k => simp [nset, setLast] at h
  | a :: b :: rest =>
      cases a with
      | idx i =>
          rw [show nset (Node.seq s) (Accessor.idx i :: b :: rest) v
                = (nset (if isContainer ((extendNulls s (i + 1)).getD i Node.null) = true
                      then (extendNulls s (i + 1)).getD i Node.null
                      else freshFor b) (b :: rest) v).map
                    (fun c' => Node.seq ((extendNulls s (i + 1)).set i c')) from rfl] at h
          cases hs : nset (if isContainer ((extendNulls s (i + 1)).getD i Node.null) = true
              then (extendNulls s (i + 1)).getD i Node.null
              else freshFor b) (b :: rest) v with
          | error e => rw [hs] at h; simp [Except.map] at h
          | ok c' =>
              rw [hs] at h
              simp [Except.map] at h
              exact ⟨(extendNulls s (i + 1)).set i c', h.symm⟩
      | key k => simp [nset] at h

theorem isContainer_nset (x y : Node) (p : List Accessor) (v : Node)
    (hx : isContainer x = true) (h : nset x p v = Except.ok y) :
    isContainer y = true := by
  cases x with
  | map m => obtain ⟨m', hm⟩ := nset_map_ok m p v y h; simp [hm, isContainer]
  | seq s => obtain ⟨s', hs⟩ := nset_seq_ok s p v y h; simp [hs, isContainer]
  | null => simp [isContainer] at hx
  | int n => simp [isContainer] at hx
  | str t => simp [isContainer] at hx

theorem nset_cons_map_present (m : List (String × Node)) (k : String) (c : Node)
    (b : Accessor) (rest : List Accessor) (v : Node)
    (hc : assocGet m k = some c) :
    nset (Node.map m) (Accessor.key k :: b :: rest) v
      = (nset c (b :: rest) v).map (fun c' => Node.map (assocSet m k c')) := by
  rw [show nset (Node.map m) (Accessor.key k :: b :: rest) v
        = (nset (match assocGet m k with
            | some c0 => c0
            | Option.none => freshFor b) (b :: rest) v).map
            (fun c' => Node.map (assocSet m k c')) from rfl]
  rw [hc]

theorem nset_cons_map_absent (m : List (String × Node)) (k : String)
    (b : Accessor) (rest : List Accessor) (v : Node)
    (hc : assocGet m k = Option.none) :
    nset (Node.map m) (Accessor.key k :: b :: rest) v
      = (nset (freshFor b) (b :: rest) v).map
          (fun c' => Node.map (m ++ [(k, c')])) := by
  rw [show nset (Node.map m) (Accessor.key k :: b :: rest) v
        = (nset (match assocGet m k with
            | some c0 => c0
            | Option.none => freshFor b) (b :: rest) v).map
            (fun c' => Node.map (assocSet m k c')) from rfl]
  rw [hc]
  cases hs : nset (freshFor b) (b :: rest) v with
  | error e => simp [Except.map]
  | ok c' => simp [Except.map, assocSet_of_absent m k c' hc]

theorem nset_cons_seq_present (s : List Node) (i : Nat) (c : Node)
    (b : Accessor) (rest : List Accessor) (v : Node)
    (hc : s[i]? = some c) (hcont : isContainer c = true) :
    nset (Node.seq s) (Accessor.idx i :: b :: rest) v
      = (nset c (b :: rest) v).map (fun c' => Node.seq (s.set i c')) := by
  have hi : i < s.length := (List.getElem?_eq_some_iff.mp hc).1
  have hext : extendNulls s (i + 1) = s := extendNulls_of_le s (i + 1) (by omega)
  rw [show nset (Node.seq s) (Accessor.idx i :: b :: rest) v
        = (nset (if isContainer ((extendNulls s (i + 1)).getD i Node.null) = true
              then (extendNulls s (i + 1)).getD i Node.null
              else freshFor b) (b :: rest) v).map
            (fun c' => Node.seq ((extendNulls s (i + 1)).set i c')) from rfl]
  rw [hext]
  have hgd : s.getD i Node.null = c := by
    simp [List.getD_eq_getElem?_getD, hc]
  rw [hgd, if_pos hcont]

theorem nset_cons_seq_append (s : List Node) (b : Accessor)
    (rest : List Accessor) (v : Node) :
    nset (Node.seq s) (Accessor.idx s.length :: b :: rest) v
      = (nset (freshFor b) (b :: rest) v).map
          (fun c' => Node.seq (s ++ [c'])) := by
  rw [show nset (Node.seq s) (Accessor.idx s.length :: b :: rest) v
        = (nset (if isContainer ((extendNulls s (s.length + 1)).getD s.length Node.null) = true
              then (extendNulls s (s.length + 1)).getD s.length Node.null
              else freshFor b) (b :: rest) v).map
            (fun c' => Node.seq ((extendNulls s (s.length + 1)).set s.length c')) from rfl]
  rw [extendNulls_succ_self]
  have hgd : (s ++ [Node.null]).getD s.length Node.null = Node.null := by
    simp [List.getD_eq_getElem?_getD, list_getElem?_append_last]
  rw [hgd]
  rw [show isContainer Node.null = false from rfl]
  simp only [Bool.false_eq_true, if_false]
  cases hs : nset (freshFor b) (b :: rest) v with
  | error e => simp [Except.map]
  | ok c' => simp [Except.map, list_set_append_last]

theorem nset_single_map_absent (m : List (String × Node)) (k : String) (v : Node)
    (hc : assocGet m k = Option.none) :
    nset (Node.map m) [Accessor.key k] v
      = Except.ok (Node.map (m ++ [(k, v)])) := by
  simp [nset, setLast, assocSet_of_absent m k v hc]

theorem nset_single_seq_append (s : List Node) (v : Node) :
    nset (Node.seq s) [Accessor.idx s.length] v
      = Except.ok (Node.seq (s ++ [v])) := by
  simp [nset, setLast, extendNulls_succ_self, list_set_append_last]

theorem replay_map_child_steps (E : List (List Accessor × Node)) :
    ∀ (m : List (String × Node)) (k : String) (c : Node),
    assocGet m k = some c → isContainer c = true →
    (∀ e ∈ E, e.1 ≠ ([] : List Accessor)) →
    replay (Node.map m) (E.map (fun e => (Accessor.key k :: e.1, e.2)))
      = (replay c E).map (fun c' => Node.map (assocSet m k c')) := by
  induction E with
  | nil =>
      intro m k c hc _ _
      simp [replay_nil, Except.map, assocSet_self m k c hc]
  | cons e E' ih =>
      intro m k c hc hcont hE
      have hp : e.1 ≠ [] := hE e (by simp)
      match he : e, hp with
      | (b :: rest, w), _ =>
          rw [List.map_cons, replay_cons, replay_cons]
          simp only
          rw [nset_cons_map_present m k c b rest w hc]
          cases hstep : nset c (b :: rest) w with
          | error ε => simp [Except.map, Except.bind]
          | ok c₁ =>
              simp only [Except.map, Except.bind]
              have hcont₁ : isContainer c₁ = true :=
                isContainer_nset c c₁ (b :: rest) w hcont hstep
              rw [ih (assocSet m k c₁) k c₁ (assocGet_assocSet_self m k c₁) hcont₁
                (fun e' he' => hE e' (by simp [he']))]
              cases hres : replay c₁ E' with
              | error ε => simp [Except.map]
              | ok cf => simp [Except.map, assocSet_assocSet_self]

theorem replay_seq_child_steps (E : List (List Accessor × Node)) :
    ∀ (s : List Node) (i : Nat) (c : Node),
    s[i]? = some c → isContainer c = true →
    (∀ e ∈ E, e.1 ≠ ([] : List Accessor)) →
    replay (Node.seq s) (E.map (fun e => (Accessor.idx i :: e.1, e.2)))
      = (replay c E).map (fun c' => Node.seq (s.set i c')) := by
  induction E with
  | nil =>
      intro s i c hc _ _
      simp [replay_nil, Except.map, list_set_self_of_getElem? s i c hc]
  | cons e E' ih =>
      intro s i c hc hcont hE
      have hi : i < s.length := (List.getElem?_eq_some_iff.mp hc).1
      have hp : e.1 ≠ [] := hE e (by simp)
      match he : e, hp with
      | (b :: rest, w), _ =>
          rw [List.map_cons, replay_cons, replay_cons]
          simp only
          rw [nset_cons_seq_present s i c b rest w hc hcont]
          cases hstep : nset c (b :: rest) w with
          | error ε => simp [Except.map, Except.bind]
          | ok c₁ =>
              simp only [Except.map, Except.bind]
              have hcont₁ : isContainer c₁ = true :=
                isContainer_nset c c₁ (b :: rest) w hcont hstep
              have hget₁ : (s.set i c₁)[i]? = some c₁ :=
                List.getElem?_set_self hi
              rw [ih (s.set i c₁) i c₁ hget₁ hcont₁
                (fun e' he' => hE e' (by simp [he']))]
              cases hres : replay c₁ E' with
              | error ε => simp [Except.map]
              | ok cf => simp [Except.map, List.set_set]

theorem isContainer_emptyLike (v : Node) (h : isContainer v = true) :
    isContainer (emptyLike v) = true := by
  cases v <;> simp [isContainer, emptyLike] at h ⊢

theorem aflatten_first_fresh (v : Node) (hrec : shouldRecurse v = true) :
    ∃ b p' w E', aflatten v = (b :: p', w) :: E' ∧ freshFor b = emptyLike v := by
  cases v with
  | map mv =>
      have hmv : mv ≠ [] := by
        intro h0; subst h0
        simp [shouldRecurse, isEmptyContainer, isContainer] at hrec
      obtain ⟨k₁, p', w, E', hE⟩ := aflatten_first_map mv hmv
      exact ⟨Accessor.key k₁, p', w, E', hE, rfl⟩
  | seq sv =>
      have hsv : sv ≠ [] := by
        intro h0; subst h0
        simp [shouldRecurse, isEmptyContainer, isContainer] at hrec
      obtain ⟨p', w, E', hE⟩ := aflatten_first_seq sv hsv
      exact ⟨Accessor.idx 0, p', w, E', hE, rfl⟩
  | null => simp [shouldRecurse, isContainer] at hrec
  | int n => simp [shouldRecurse, isContainer] at hrec
  | str t => simp [shouldRecurse, isContainer] at hrec

theorem replay_child_map (v : Node)
    (HR : shouldRecurse v = true → replay (emptyLike v) (aflatten v) = Except.ok v)
    (m : List (String × Node)) (k : String) (hc : assocGet m k = Option.none) :
    replay (Node.map m)
        ((childEntries v).map (fun e => (Accessor.key k :: e.1, e.2)))
      = Except.ok (Node.map (m ++ [(k, v)])) := by
  by_cases hrec : shouldRecurse v = true
  · rw [childEntries, if_pos hrec]
    obtain ⟨b, p', w, E', hE, hfresh⟩ := aflatten_first_fresh v hrec
    have hcontv : isContainer v = true := by
      simp [shouldRecurse] at hrec; exact hrec.1
    have hR := HR hrec
    rw [hE, replay_cons] at hR
    rw [hE, List.map_cons, replay_cons]
    simp only
    rw [nset_cons_map_absent m k b p' w hc, hfresh]
    cases hstep : nset (emptyLike v) (b :: p') w with
    | error ε =>
        rw [hstep] at hR
        simp [Except.bind] at hR
    | ok c₁ =>
        rw [hstep] at hR
        simp only [Except.bind] at hR
        simp only [Except.map, Except.bind]
        have hcont₁ : isContainer c₁ = true :=
          isContainer_nset (emptyLike v) c₁ (b :: p') w
            (isContainer_emptyLike v hcontv) hstep
        have hpaths : ∀ e ∈ E', e.1 ≠ ([] : List Accessor) := by
          intro e he
          exact aflatten_paths_ne_nil v hrec e (by rw [hE]; simp [he])
        rw [replay_map_child_steps E' (m ++ [(k, c₁)]) k c₁
          (assocGet_append_of_absent m k c₁ hc) hcont₁ hpaths]
        rw [hR]
        simp [Except.map, assocSet_append_self m k c₁ v hc]
  · rw [childEntries, if_neg hrec]
    simp only [List.map_cons, List.map_nil]
    rw [replay_cons]
    simp only
    rw [nset_single_map_absent m k v hc]
    simp [Except.bind, replay_nil]

theorem replay_child_seq (v : Node)
    (HR : shouldRecurse v = true → replay (emptyLike v) (aflatten v) = Except.ok v)
    (s₀ : List Node) :
    replay (Node.seq s₀)
        ((childEntries v).map (fun e => (Accessor.idx s₀.length :: e.1, e.2)))
      = Except.ok (Node.seq (s₀ ++ [v])) := by
  by_cases hrec : shouldRecurse v = true
  · rw [childEntries, if_pos hrec]
    obtain ⟨b, p', w, E', hE, hfresh⟩ := aflatten_first_fresh v hrec
    have hcontv : isContainer v = true := by
      simp [shouldRecurse] at hrec; exact hrec.1
    have hR := HR hrec
    rw [hE, replay_cons] at hR
    rw [hE, List.map_cons, replay_cons]
    simp only
    rw [nset_cons_seq_append s₀ b p' w, hfresh]
    cases hstep : nset (emptyLike v) (b :: p') w with
    | error ε =>
        rw [hstep] at hR
        simp [Except.bind] at hR
    | ok c₁ =>
        rw [hstep] at hR
        simp only [Except.bind] at hR
        simp only [Except.map, Except.bind]
        have hcont₁ : isContainer c₁ = true :=
          isContainer_nset (emptyLike v) c₁ (b :: p') w
            (isContainer_emptyLike v hcontv) hstep
        have hpaths : ∀ e ∈ E', e.1 ≠ ([] : List Accessor) := by
          intro e he
          exact aflatten_paths_ne_nil v hrec e (by rw [hE]; simp [he])
        rw [replay_seq_child_steps E' (s₀ ++ [c₁]) s₀.length c₁
          (list_getElem?_append_last s₀ c₁) hcont₁ hpaths]
        rw [hR]
        simp [Except.map, list_set_append_last]
  · rw [childEntries, if_neg hrec]
    simp only [List.map_cons, List.map_nil]
    rw [replay_cons]
    simp only
    rw [nset_single_seq_append s₀ v]
    simp [Except.bind, replay_nil]

theorem wfEntries_mem_wf (m : List (String × Node)) (k : String) (v : Node)
    (hwf : wfEntries m = true) (hv : (k, v) ∈ m) : wfNode v = true := by
  induction m with
  | nil => simp at hv
  | cons hd t ih =>
      obtain ⟨k', v'⟩ := hd
      rw [wfEntries] at hwf
      simp only [Bool.and_eq_true] at hwf
      rcases List.mem_cons.mp hv with h | h
      · obtain ⟨h1, h2⟩ := Prod.mk.injEq .. ▸ h
        exact h2 ▸ hwf.1.2
      · exact ih hwf.2 h

theorem wfItems_mem_wf (s : List Node) (v : Node)
    (hwf : wfItems s = true) (hv : v ∈ s) : wfNode v = true := by
  induction s with
  | nil => simp at hv
  | cons v' t ih =>
      rw [wfItems] at hwf
      simp only [Bool.and_eq_true] at hwf
      rcases List.mem_cons.mp hv with h | h
      · exact h ▸ hwf.1
      · exact ih hwf.2 h

theorem replay_entries_build (m : List (String × Node)) :
    ∀ (m₀ : List (String × Node)),
    (∀ e ∈ m, assocGet m₀ e.1 = Option.none) →
    wfEntries m = true →
    (∀ k v, (k, v) ∈ m → shouldRecurse v = true →
        replay (emptyLike v) (aflatten v) = Except.ok v) →
    replay (Node.map m₀) (aflattenEntries m) = Except.ok (Node.map (m₀ ++ m)) := by
  induction m with
  | nil => intro m₀ _ _ _; simp [aflattenEntries, replay_nil]
  | cons hd rest ih =>
      obtain ⟨k, v⟩ := hd
      intro m₀ habs hwf HRs
      rw [aflattenEntries_cons, replay_append]
      rw [replay_child_map v (fun hr => HRs k v (by simp) hr) m₀ k
        (habs (k, v) (by simp))]
      simp only [Except.bind]
      rw [wfEntries] at hwf
      simp only [Bool.and_eq_true] at hwf
      rw [show m₀ ++ (k, v) :: rest = (m₀ ++ [(k, v)]) ++ rest by simp]
      apply ih (m₀ ++ [(k, v)])
      · intro e he
        apply assocGet_append_of_ne m₀ k e.1 v (habs e (by simp [he]))
        have hne := List.all_eq_true.mp hwf.1.1 e.1 (List.mem_map.mpr ⟨e, he, rfl⟩)
        intro hkk
        rw [hkk] at hne
        simp at hne
      · exact hwf.2
      · intro k' v' h' hr
        exact HRs k' v' (by simp [h']) hr

theorem replay_items_build (s : List Node) :
    ∀ (s₀ : List Node),
    wfItems s = true →
    (∀ v ∈ s, shouldRecurse v = true →
        replay (emptyLike v) (aflatten v) = Except.ok v) →
    replay (Node.seq s₀) (aflattenItems s s₀.length)
      = Except.ok (Node.seq (s₀ ++ s)) := by
  induction s with
  | nil => intro s₀ _ _; simp [aflattenItems, replay_nil]
  | cons v rest ih =>
      intro s₀ hwf HRs
      rw [aflattenItems_cons, replay_append]
      rw [replay_child_seq v (fun hr => HRs v (by simp) hr) s₀]
      simp only [Except.bind]
      rw [wfItems] at hwf
      simp only [Bool.and_eq_true] at hwf
      have hlen : s₀.length + 1 = (s₀ ++ [v]).length := by simp
      rw [hlen]
      rw [show s₀ ++ v :: rest = (s₀ ++ [v]) ++ rest by simp]
      exact ih (s₀ ++ [v]) hwf.2 (fun v' h' hr => HRs v' (by simp [h']) hr)

theorem replay_aflatten (x : Node) (hwf : wfNode x = true)
    (hx : shouldRecurse x = true) :
    replay (emptyLike x) (aflatten x) = Except.ok x := by
  refine node_ind (fun x => wfNode x = true → shouldRecurse x = true →
    replay (emptyLike x) (aflatten x) = Except.ok x) ?_ ?_ ?_ ?_ ?_ x hwf hx
  · intro _ h; simp [shouldRecurse, isContainer] at h
  · intro n _ h; simp [shouldRecurse, isContainer] at h
  · intro t _ h; simp [shouldRecurse, isContainer] at h
  · intro m hm hwfm _
    rw [show emptyLike (Node.map m) = Node.map [] from rfl, aflatten_map_def]
    have hwfe : wfEntries m = true := by rw [wfNode] at hwfm; exact hwfm
    have := replay_entries_build m [] (fun e _ => rfl) hwfe
      (fun k v hv hr => hm k v hv (wfEntries_mem_wf m k v hwfe hv) hr)
    simpa using this
  · intro s hs hwfs _
    rw [show emptyLike (Node.seq s) = Node.seq [] from rfl, aflatten_seq_def]
    have hwfi : wfItems s = true := by rw [wfNode] at hwfs; exact hwfs
    have := replay_items_build s [] hwfi
      (fun v hv hr => hs v hv (wfItems_mem_wf s v hwfi hv) hr)
    simpa using this

theorem aflattenEntries_accs (sep : Char) (m : List (String × Node)) :
    (∀ k v, (k, v) ∈ m → goodStr sep v = true →
        ∀ e ∈ aflatten v, e.1.all (accOk sep) = true) →
    goodStrEntries sep m = true →
    ∀ e ∈ aflattenEntries m, e.1.all (accOk sep) = true := by
  induction m with
  | nil => intro _ _ e he; simp [aflattenEntries] at he
  | cons hd rest ih =>
      obtain ⟨k, v⟩ := hd
      intro IH hg e he
      rw [goodStrEntries] at hg
      simp only [Bool.and_eq_true] at hg
      rw [aflattenEntries_cons, List.mem_append] at he
      rcases he with he | he
      · obtain ⟨pw, hpw, hpe⟩ := List.mem_map.mp he
        rw [← hpe]
        rw [List.all_cons, Bool.and_eq_true]
        refine ⟨?_, ?_⟩
        · show accOk sep (Accessor.key k) = true
          simp only [accOk, Bool.and_eq_true]
          exact ⟨hg.1.1.1, hg.1.1.2⟩
        · rw [childEntries] at hpw
          by_cases hrec : shouldRecurse v = true
          · rw [if_pos hrec] at hpw
            exact IH k v (by simp) hg.1.2 pw hpw
          · rw [if_neg hrec] at hpw
            simp at hpw
            rw [hpw]
            rfl
      · exact ih (fun k' v' h' => IH k' v' (by simp [h'])) hg.2 e he

theorem aflattenItems_accs (sep : Char) (s : List Node) :
    (∀ v ∈ s, goodStr sep v = true →
        ∀ e ∈ aflatten v, e.1.all (accOk sep) = true) →
    goodStrItems sep s = true →
    ∀ i, ∀ e ∈ aflattenItems s i, e.1.all (accOk sep) = true := by
  induction s with
  | nil => intro _ _ i e he; simp [aflattenItems] at he
  | cons v rest ih =>
      intro IH hg i e he
      rw [goodStrItems] at hg
      simp only [Bool.and_eq_true] at hg
      rw [aflattenItems_cons, List.mem_append] at he
      rcases he with he | he
      · obtain ⟨pw, hpw, hpe⟩ := List.mem_map.mp he
        rw [← hpe]
        rw [List.all_cons, Bool.and_eq_true]
        refine ⟨rfl, ?_⟩
        rw [childEntries] at hpw
        by_cases hrec : shouldRecurse v = true
        · rw [if_pos hrec] at hpw
          exact IH v (by simp) hg.1 pw hpw
        · rw [if_neg hrec] at hpw
          simp at hpw
          rw [hpw]
          rfl
      · exact ih (fun v' h' => IH v' (by simp [h'])) hg.2 (i + 1) e he

theorem aflatten_accs (sep : Char) (x : Node) :
    goodStr sep x = true → ∀ e ∈ aflatten x, e.1.all (accOk sep) = true := by
  refine node_ind (fun x => goodStr sep x = true →
    ∀ e ∈ aflatten x, e.1.all (accOk sep) = true) ?_ ?_ ?_ ?_ ?_ x
  · intro _ e he
    simp [aflatten] at he
    simp [he]
  · intro n _ e he
    simp [aflatten] at he
    simp [he]
  · intro t _ e he
    simp [aflatten] at he
    simp [he]
  · intro m hm hg e he
    rw [aflatten_map_def] at he
    exact aflattenEntries_accs sep m hm (by rw [goodStr] at hg; exact hg) e he
  · intro s hs hg e he
    rw [aflatten_seq_def] at he
    exact aflattenItems_accs sep s hs (by rw [goodStr] at hg; exact hg) 0 e he

theorem accToStr_no_sep (sep : Char) (a : Accessor)
    (hsep : sep.isDigit = false) (ha : accOk sep a = true) :
    sep ∉ (accToStr a).data := by
  cases a with
  | key k =>
      simp only [accOk, Bool.and_eq_true] at ha
      have := ha.2
      simp at this
      exact this
  | idx i =>
      rw [accToStr]
      rw [show (String.mk (natChars i)).data = natChars i from rfl]
      intro hmem
      have := natChars_all_digit i sep hmem
      rw [hsep] at this
      exact Bool.false_ne_true this

theorem parseAcc_accToStr (sep : Char) (a : Accessor) (ha : accOk sep a = true) :
    parseAcc (accToStr a) = a := by
  cases a with
  | key k =>
      simp only [accOk, Bool.and_eq_true] at ha
      rw [accToStr]
      exact parseAcc_of_not_digit k (by
        have := ha.1
        cases h : isDigitStr k
        · rfl
        · rw [h] at this; simp at this)
  | idx i =>
      rw [accToStr]
      exact parseAcc_natChars i

theorem split_join_parse (sep : Char) (p : List Accessor)
    (hsep : sep.isDigit = false) (hp : p ≠ [])
    (hacc : p.all (accOk sep) = true) :
    (splitParts sep (joinParts sep (p.map accToStr))).map parseAcc = p := by
  have hacc' := List.all_eq_true.mp hacc
  have hsplit : (joinParts sep (p.map accToStr)).data.splitOn sep
      = (p.map accToStr).map String.data := by
    rw [joinParts]
    rw [show (String.mk (List.intercalate [sep]
        ((p.map accToStr).map String.data))).data
      = List.intercalate [sep] ((p.map accToStr).map String.data) from rfl]
    apply List.splitOn_intercalate
    · intro l hl
      obtain ⟨t, ht, hlt⟩ := List.mem_map.mp hl
      obtain ⟨a, ha, hat⟩ := List.mem_map.mp ht
      rw [← hlt, ← hat]
      exact accToStr_no_sep sep a hsep (hacc' a ha)
    · intro habs
      rw [List.map_eq_nil_iff, List.map_eq_nil_iff] at habs
      exact hp habs
  rw [splitParts, hsplit]
  rw [List.map_map, List.map_map, List.map_map]
  conv_rhs => rw [← List.map_id p]
  apply List.map_congr_left
  intro a ha
  show parseAcc (accToStr a) = a
  exact parseAcc_accToStr sep a (hacc' a ha)

theorem parsed_flatten (sep : Char) (x : Node)
    (hsep : sep.isDigit = false) (hgs : goodStr sep x = true)
    (hsr : shouldRecurse x = true) :
    (flatten x sep).map (fun kv => ((splitParts sep kv.1).map parseAcc, kv.2))
      = aflatten x := by
  rw [flatten, List.map_map]
  conv_rhs => rw [← List.map_id (aflatten x)]
  apply List.map_congr_left
  intro e he
  show ((splitParts sep (joinParts sep (e.1.map accToStr))).map parseAcc, e.2) = id e
  rw [split_join_parse sep e.1 hsep (aflatten_paths_ne_nil x hsr e he)
    (aflatten_accs sep x hgs e he)]
  rfl

/-- The top-level shapes `unflatten` can reconstruct: any mapping, or a
non-empty sequence (a top-level empty sequence flattens to no entries and
is rebuilt as an empty mapping). -/
def topShape : Node → Bool
  | Node.map _ => true
  | Node.seq (_ :: _) => true
  | _ => false

/-- C2 (amended): for every well-formed structure whose top level is a
mapping or a non-empty sequence, flattening with a single-character
non-digit separator occurring in no mapping key and then unflattening
returns a structure equal to the original, provided additionally that no
mapping key anywhere in the structure is a digit string (such keys are
re-parsed by `unflatten` as sequence indices). -/
theorem unflatten_flatten_roundtrip (sep : Char) (x : Node)
    (hsep : sep.isDigit = false) (hwf : wfNode x = true)
    (hgs : goodStr sep x = true) (htop : topShape x = true) :
    unflatten (flatten x sep) sep = Except.ok x := by
  cases x with
  | map m =>
      cases m with
      | nil =>
          have hfe : flatten (Node.map []) sep = [] := by
            simp [flatten, aflatten_map_def, aflattenEntries]
          rw [hfe]
          rfl
      | cons hd t =>
          have hsr : shouldRecurse (Node.map (hd :: t)) = true := by
            simp [shouldRecurse, isContainer, isEmptyContainer]
          have hparse := parsed_flatten sep (Node.map (hd :: t)) hsep hgs hsr
          obtain ⟨k₁, p', w, E', hE⟩ := aflatten_first_map (hd :: t) (by simp)
          have hra := replay_aflatten (Node.map (hd :: t)) hwf hsr
          rw [unflatten]
          simp only [hparse, hE]
          simp only [List.head?_cons]
          rw [hE] at hra
          simpa [replay, emptyLike] using hra
  | seq s =>
      cases s with
      | nil => simp [topShape] at htop
      | cons v t =>
          have hsr : shouldRecurse (Node.seq (v :: t)) = true := by
            simp [shouldRecurse, isContainer, isEmptyContainer]
          have hparse := parsed_flatten sep (Node.seq (v :: t)) hsep hgs hsr
          obtain ⟨p', w, E', hE⟩ := aflatten_first_seq (v :: t) (by simp)
          have hra := replay_aflatten (Node.seq (v :: t)) hwf hsr
          rw [unflatten]
          simp only [hparse, hE]
          simp only [List.head?_cons]
          rw [hE] at hra
          simpa [replay, emptyLike] using hra
  | null => simp [topShape] at htop
  | int n => simp [topShape] at htop
  | str t => simp [topShape] at htop

theorem unflatten_flatten_roundtrip_witness :
    ('|').isDigit = false ∧
    wfNode (Node.map [("a", Node.map [("b", Node.int 1)]),
      ("g", Node.seq [Node.int 4, Node.str "y"])]) = true ∧
    goodStr '|' (Node.map [("a", Node.map [("b", Node.int 1)]),
      ("g", Node.seq [Node.int 4, Node.str "y"])]) = true ∧
    topShape (Node.map [("a", Node.map [("b", Node.int 1)]),
      ("g", Node.seq [Node.int 4, Node.str "y"])]) = true ∧
    unflatten (flatten (Node.map [("a", Node.map [("b", Node.int 1)]),
      ("g", Node.seq [Node.int 4, Node.str "y"])]) '|') '|'
      = Except.ok (Node.map [("a", Node.map [("b", Node.int 1)]),
          ("g", Node.seq [Node.int 4, Node.str "y"])]) := by
  have hwf : wfNode (Node.map [("a", Node.map [("b", Node.int 1)]),
      ("g", Node.seq [Node.int 4, Node.str "y"])]) = true := by
    simp [wfNode, wfEntries, wfItems]
  have hgs : goodStr '|' (Node.map [("a", Node.map [("b", Node.int 1)]),
      ("g", Node.seq [Node.int 4, Node.str "y"])]) = true := by
    simp [goodStr, goodStrEntries, goodStrItems, isDigitStr]
  exact ⟨rfl, hwf, hgs, rfl,
    unflatten_flatten_roundtrip '|' _ rfl hwf hgs rfl⟩

/-- C2 is refuted as stated: the structure `{"0": "v"}` contains only a
mapping with a scalar leaf, and the separator `|` occurs in no key, yet
unflattening its flattening yields the sequence `["v"]` — `unflatten`
re-parses the digit-string key `"0"` as a sequence index — which is not
equal to the original mapping. -/
theorem unflatten_flatten_digit_key :
    flatten (Node.map [("0", Node.str "v")]) '|' = [("0", Node.str "v")] ∧
    unflatten [("0", Node.str "v")] '|' = Except.ok (Node.seq [Node.str "v"]) ∧
    Node.seq [Node.str "v"] ≠ Node.map [("0", Node.str "v")] ∧
    ("0".data.contains '|') = false := by
  refine ⟨?_, rfl, by simp, rfl⟩
  simp [flatten, aflatten, aflattenEntries, shouldRecurse, isContainer,
    isEmptyContainer, joinParts, accToStr, List.intercalate]
